import Mathlib

/-!
# Verification of the github-scraper extraction-and-pagination core

Shallow embedding, in Lean 4, of the algorithmic core of the scraper:

* the unknown-size page counter (`src/gitlab/repoCount.ts`, `GetGitlabRepoCount.handle`),
* the page-walking crawl loops and their merge policies
  (`src/github/issues.ts` `GetIssues.handle`, `src/github/dependents.ts` `GetDependents.handle`),
* the streaming parser state machine (`src/common/htmlparser.ts` `HTMLParser`),
* the field transforms (check text, mentioned links, dependents pagination).

JS numbers that stay non-negative integers throughout are modelled as `Nat`
(every quantity below is a page number, an item count or a list index, all
non-negative in the source); JS objects that the code builds are modelled as
association lists in insertion order, since `Object.assign` / `Object.keys` /
`Object.entries` only need the key set, the per-key value and the entry list.
Unbounded `while` loops are modelled with explicit fuel, returning `Option`.
-/

set_option autoImplicit false
set_option linter.unusedSectionVars false

namespace GithubScraper

/-! ## Unknown-size page counter (`src/gitlab/repoCount.ts`, lines 37-95)

The handler receives `estimate`, computes `estimatePageCount = ceil(estimate/100)`,
doubles it while the probed page is full (100 items), then binary-searches with
`low = 1`, `high = estimatePageCount`, `mid = floor((low+high)/2)`,
`lastFetchNumRepos = 100`, returning `{total_pages: mid, total: (mid-1)*100 + lastFetchNumRepos}`
either as soon as a probe returns a partial page, or when the loop exits with `low >= high`.

`pageLength p` abstracts `(await fetchGitlabReposPage({page: p, perPage: 100})).length`,
an integer in `[0, 100]`.  The two `while` loops get explicit fuel; the source has
no iteration cap (spec section 4.4 failure mode), so exhausted fuel yields `none`. -/

/-- Phase 1 of `GetGitlabRepoCount.handle` (lines 47-60): keep doubling
`estimatePageCount` while the probed page holds exactly 100 repos. -/
def growEstimate (pageLength : Nat → Nat) : Nat → Nat → Option Nat
  | 0, _ => none
  | fuel + 1, est =>
    if pageLength est == 100 then growEstimate pageLength fuel (est * 2)
    else some est

/-- Phase 2 of `GetGitlabRepoCount.handle` (lines 62-94): the
`while (low < high)` binary-search loop.  State is `(low, high, mid, lastFetchNumRepos)`
exactly as in the source; the result is `(total_pages, total)`. -/
def repoCountSearch (pageLength : Nat → Nat) :
    Nat → Nat → Nat → Nat → Nat → Option (Nat × Nat)
  | 0, _, _, _, _ => none
  | fuel + 1, low, high, mid, lastFetch =>
    if low < high then
      let len := pageLength mid
      if len == 100 then
        repoCountSearch pageLength fuel (mid + 1) high ((mid + 1 + high) / 2) len
      else if len == 0 then
        repoCountSearch pageLength fuel low (mid - 1) ((low + (mid - 1)) / 2) len
      else
        some (mid, (mid - 1) * 100 + len)
    else
      some (mid, (mid - 1) * 100 + lastFetch)

/-- `GetGitlabRepoCount.handle` (lines 37-95): ceil-divide the estimate by 100,
grow it past the end of the collection, then binary-search.  Returns
`(total_pages, total)`. -/
def countPages (pageLength : Nat → Nat) (fuel : Nat) (estimate : Nat) :
    Option (Nat × Nat) :=
  let est0 := (estimate + 99) / 100
  match growEstimate pageLength fuel est0 with
  | none => none
  | some high => repoCountSearch pageLength fuel 1 high ((1 + high) / 2) 100

/-- Probe function of a stable collection of exactly 250 items at page size 100:
pages 1 and 2 are full, page 3 holds 50 items, later pages are empty. -/
def probe250 (p : Nat) : Nat :=
  if p ≤ 2 then 100 else if p == 3 then 50 else 0

/-- Probe function of a stable collection of exactly 300 items at page size 100:
pages 1-3 are full and every later page is empty. -/
def probe300 (p : Nat) : Nat :=
  if p ≤ 3 then 100 else 0

/-! ## Digit-group extraction (the JS regex `/(\d+)/g`)

`issues.ts` uses `v.match(/(\d+)/g)` twice: in the `KeyRule` on `.js-issue-row`
(line 92) and in the check-text transform (line 160).  The JS call returns the
list of maximal runs of decimal digits in document order, or `null` when there
is none (modelled as the empty list, which is how both call sites treat it). -/

/-- Maximal runs of decimal digits in a character list; `acc` is the current
run collected so far, in reverse. -/
def digitGroupsAux : List Char → List Char → List (List Char)
  | [], acc => if acc.isEmpty then [] else [acc.reverse]
  | c :: cs, acc =>
    if c.isDigit then digitGroupsAux cs (c :: acc)
    else if acc.isEmpty then digitGroupsAux cs []
    else acc.reverse :: digitGroupsAux cs []

/-- `s.match(/(\d+)/g)`: every maximal digit group of `s`, in order
(`[]` plays the role of JS `null`, and both call sites only test emptiness /
length, so the two are interchangeable here). -/
def digitGroups (s : String) : List String :=
  (digitGroupsAux s.data []).map fun l => String.mk l

/-- JS `parseInt` on a string of decimal digits. -/
def digitsToNat (s : String) : Nat :=
  s.data.foldl (fun n c => n * 10 + (c.toNat - '0'.toNat)) 0

/-! ## Check-text transform (`src/github/issues.ts`, lines 158-176)

`fieldMap(res, 'check', v => ...)`: extract the digit groups of the joined raw
text; if there are exactly two, compare them as strings and build
`{status, total: parseInt(m[1]), passed: parseInt(m[0])}`; otherwise yield
`undefined` (modelled as `none`). -/

/-- The structured check field `{status, total, passed}`. -/
structure CheckInfo where
  status : String
  total : Nat
  passed : Nat
  deriving DecidableEq

/-- The check-field transform of `parseIssues` (issues.ts lines 159-176). -/
def parseCheck (v : String) : Option CheckInfo :=
  let ms := digitGroups v
  if ms.length == 2 then
    let m0 := ms.getD 0 ""
    let m1 := ms.getD 1 ""
    if m0 == m1 then
      some { status := "passed", total := digitsToNat m1, passed := digitsToNat m0 }
    else
      some { status := "failed", total := digitsToNat m1, passed := digitsToNat m0 }
  else none

/-! ## Claim theorems: unknown-size page counter -/

/-- **C1.** The claim states that for the 250-item collection (pages of sizes
100, 100, 50, then empty) `countPages` returns `(3, 250)` for *every*
`roughEstimate ≥ 1`.  The code disagrees: with `estimate = 250` the initial
page estimate is `ceil(250/100) = 3`, phase 1 probes page 3 (50 items, not
full) and stops, and the binary search then drives `low` from 1 to 3 without
ever probing page 3, so the `while (low < high)` loop exits and the handler
returns the stale `lastFetchNumRepos = 100` from its probe of page 2:
`{total_pages: 3, total: 300}` for a collection that holds 250 items. -/
theorem countPages_probe250_estimate250_returns_300 :
    countPages probe250 64 250 = some (3, 300) ∧
      countPages probe250 64 250 ≠ some (3, 250) := by
  constructor
  · rfl
  · decide

/-- **C2.** The claim states that a collection of exactly 300 items (pages 1-3
full, page 4 empty) yields `(3, 300)`.  With `estimate = 1` phase 1 probes
pages 1, 2, 4 and stops at `estimatePageCount = 4`; the binary search probes
pages 2 and 3 (both full), exits its loop with `low = high = mid = 4`, and
returns `{total_pages: 4, total: (4-1)*100 + 100} = {4, 400}` — the stale
`lastFetchNumRepos` again, and a page count one past the true last page.  The
search can only return early on a *partial* page, so a collection whose last
page is full never produces the claimed exact answer. -/
theorem countPages_probe300_estimate1_returns_400 :
    countPages probe300 64 1 = some (4, 400) ∧
      countPages probe300 64 1 ≠ some (3, 300) := by
  constructor
  · rfl
  · decide

/-! ## `HTMLParser` instance state (`src/common/htmlparser.ts`, lines 7-120)

An `HTMLParser` instance holds two mutable globals shared by every registered
rule callback: `key` (initially the sentinel string `'$keyIsNull'`) and `res`
(initially `{}`).  Keys are JS strings or numbers (`KeyType = string | number`);
`res` maps a key to a map from field name to the list of collected raw values.
`parse(response)` awaits the rewriter (which runs the registered callbacks
over the document's event stream, mutating `key`/`res`), grabs `res`, then
resets both globals before returning.  The registered callbacks are abstracted
as one step function over an abstract event type: each claim below only needs
how `parse` threads the instance state, not which rule fired. -/

/-- JS `KeyType = string | number`. -/
inductive JKey where
  | str (s : String)
  | num (n : Int)
  deriving DecidableEq

/-- The collection `this.res`: key ↦ (field name ↦ collected raw values). -/
abbrev JObj := List (JKey × List (String × List String))

/-- The two mutable globals of one `HTMLParser` instance. -/
structure ParserState where
  key : JKey
  res : JObj
  deriving DecidableEq

/-- Constructor state of `HTMLParser` (htmlparser.ts lines 10-11), also the
state `parse` resets to (lines 116-117). -/
def initialParserState : ParserState := ⟨.str "$keyIsNull", []⟩

/-- One call of `HTMLParser.parse` (htmlparser.ts lines 112-119) on an instance
whose registered rule callbacks amount to `step` and whose instance state is
`st`: the rewriter runs the callbacks over the document's event stream,
mutating `key`/`res`; `parse` then returns the built collection and resets the
instance state. -/
def parseCall {Ev : Type} (step : ParserState → Ev → ParserState)
    (st : ParserState) (doc : List Ev) : JObj × ParserState :=
  let st' := doc.foldl step st
  (st'.res, initialParserState)

/-- A sequence of `parse` calls on one instance, threading the instance state
from call to call exactly as the mutable fields do. -/
def runParses {Ev : Type} (step : ParserState → Ev → ParserState) :
    ParserState → List (List Ev) → List JObj
  | _, [] => []
  | st, d :: ds =>
    let p := parseCall step st d
    p.1 :: runParses step p.2 ds

/-! ## Claim theorems: transforms and parser state -/

/-- **C8.** The check-field transform maps `"7 / 7 checks passed"` to
`{status: "passed", total: 7, passed: 7}` and `"3 / 7 checks passed"` to
`{status: "failed", total: 7, passed: 3}`, and yields `undefined` (never an
error) on every raw value without exactly two digit groups. -/
theorem parseCheck_correct :
    parseCheck "7 / 7 checks passed" = some ⟨"passed", 7, 7⟩ ∧
    parseCheck "3 / 7 checks passed" = some ⟨"failed", 7, 3⟩ ∧
    ∀ v : String, (digitGroups v).length ≠ 2 → parseCheck v = none := by
  refine ⟨rfl, rfl, fun v h => ?_⟩
  simp only [parseCheck]
  rw [if_neg]
  simpa using h

/-- Witness for **C8**: `"no checks"` has zero digit groups, and the transform
yields `undefined` on it. -/
theorem parseCheck_correct_witness : parseCheck "no checks" = none :=
  parseCheck_correct.2.2 "no checks" (by decide)

/-- **C7.** On one `HTMLParser` instance, every `parse` call starts from the
sentinel key `'$keyIsNull'` and the empty collection (the constructor state,
restored by the reset at the end of each call), so the results of a sequence
of `parse` calls are computed call-by-call from `initialParserState` on each
call's own document alone: nothing of an earlier call's key or collected
values reaches a later call's result. -/
theorem runParses_resets_state {Ev : Type} (step : ParserState → Ev → ParserState)
    (docs : List (List Ev)) :
    runParses step initialParserState docs =
      docs.map fun d => (d.foldl step initialParserState).res := by
  induction docs with
  | nil => rfl
  | cons d ds ih =>
    simp only [runParses, parseCall, List.map_cons]
    rw [ih]

/-! ## Mentioned-links transform (`src/github/timeline.ts`, lines 267-279)

`fieldMap(res, 'mentionedLinks', v => v.map(t => t.startsWith('/') ?
'https://github.com' + t : t).filter(t => t.startsWith('http'))
.filter((item, index, array) => array.indexOf(item) === index))`. -/

/-- The per-link rewrite: prepend `https://github.com` to root-relative links. -/
def absolutize (t : String) : String :=
  if t.startsWith "/" then "https://github.com" ++ t else t

/-- JS `Array.prototype.indexOf`: first index of `x`, `-1` when absent. -/
def jsIndexOf (l : List String) (x : String) : Int :=
  match l with
  | [] => -1
  | a :: t =>
    if a == x then 0
    else
      let r := jsIndexOf t x
      if r == -1 then -1 else r + 1

/-- The JS callback `filter((item, index, array) => array.indexOf(item) === index)`
unrolled: walk the array with its index, keeping the entries that are the first
occurrence of their value in the whole array. -/
def uniqueAux (arr : List String) : List String → Nat → List String
  | [], _ => []
  | x :: rest, i =>
    if jsIndexOf arr x == (i : Int) then x :: uniqueAux arr rest (i + 1)
    else uniqueAux arr rest (i + 1)

/-- The de-duplication filter of the mentioned-links transform. -/
def jsUnique (l : List String) : List String := uniqueAux l l 0

/-- The whole mentioned-links transform (timeline.ts lines 268-279). -/
def transformLinks (v : List String) : List String :=
  jsUnique ((v.map absolutize).filter fun t => t.startsWith "http")

/-- Reference formulation of keep-the-first-occurrence de-duplication: drop an
element iff it already appeared (in `seen`, or earlier in the remaining list). -/
def keepFirst (seen : List String) : List String → List String
  | [] => []
  | x :: rest =>
    if x ∈ seen then keepFirst seen rest
    else x :: keepFirst (seen ++ [x]) rest

/-- First-seen-order de-duplication of a list. -/
def dedupFirst (l : List String) : List String := keepFirst [] l

theorem jsIndexOf_cons (a : String) (t : List String) (x : String) :
    jsIndexOf (a :: t) x =
      if a == x then 0
      else if jsIndexOf t x == -1 then -1 else jsIndexOf t x + 1 := rfl

theorem natCast_beq_negOne (n : Nat) : ((n : Int) == -1) = false := by
  rw [beq_eq_false_iff_ne]
  omega

theorem jsIndexOf_append_cons_of_not_mem (pre r : List String) (x : String)
    (h : x ∉ pre) : jsIndexOf (pre ++ x :: r) x = pre.length := by
  induction pre with
  | nil => simp [jsIndexOf]
  | cons a pre ih =>
    have hax : (a == x) = false := by
      rw [beq_eq_false_iff_ne]
      intro e
      exact h (e ▸ List.mem_cons_self a pre)
    have hpre : x ∉ pre := fun hx => h (List.mem_cons_of_mem a hx)
    rw [List.cons_append, jsIndexOf_cons, hax, ih hpre, natCast_beq_negOne]
    simp

theorem jsIndexOf_append_of_mem (pre s : List String) (x : String)
    (h : x ∈ pre) : ∃ j : Nat, j < pre.length ∧ jsIndexOf (pre ++ s) x = j := by
  induction pre with
  | nil => cases h
  | cons a pre ih =>
    by_cases hax : a = x
    · refine ⟨0, by simp, ?_⟩
      rw [List.cons_append, jsIndexOf_cons]
      simp [hax]
    · have hx : x ∈ pre := by
        cases List.mem_cons.mp h with
        | inl e => exact absurd e.symm hax
        | inr hm => exact hm
      obtain ⟨j, hj, hev⟩ := ih hx
      refine ⟨j + 1, by simpa using Nat.succ_lt_succ hj, ?_⟩
      have hne : (a == x) = false := by
        rw [beq_eq_false_iff_ne]
        exact hax
      rw [List.cons_append, jsIndexOf_cons, hne, hev, natCast_beq_negOne]
      simp

theorem keepFirst_congr (r : List String) :
    ∀ s₁ s₂ : List String, (∀ y, y ∈ s₁ ↔ y ∈ s₂) →
      keepFirst s₁ r = keepFirst s₂ r := by
  induction r with
  | nil => intro _ _ _; rfl
  | cons x rest ih =>
    intro s₁ s₂ h
    by_cases hx : x ∈ s₁
    · have hx₂ : x ∈ s₂ := (h x).mp hx
      simp only [keepFirst, if_pos hx, if_pos hx₂]
      exact ih s₁ s₂ h
    · have hx₂ : x ∉ s₂ := fun c => hx ((h x).mpr c)
      simp only [keepFirst, if_neg hx, if_neg hx₂]
      rw [ih (s₁ ++ [x]) (s₂ ++ [x]) (by intro y; simp [h y])]

theorem uniqueAux_eq_keepFirst (rest : List String) :
    ∀ pre : List String, uniqueAux (pre ++ rest) rest pre.length = keepFirst pre rest := by
  induction rest with
  | nil => intro pre; rfl
  | cons x rest ih =>
    intro pre
    by_cases hx : x ∈ pre
    · obtain ⟨j, hj, hev⟩ := jsIndexOf_append_of_mem pre (x :: rest) x hx
      have hcond : (jsIndexOf (pre ++ x :: rest) x == (pre.length : Int)) = false := by
        rw [hev]
        simp [beq_eq_false_iff_ne]
        omega
      have hstep : pre ++ x :: rest = (pre ++ [x]) ++ rest := by simp
      simp only [uniqueAux, hcond, if_false, keepFirst, if_pos hx]
      have := ih (pre ++ [x])
      rw [hstep]
      simp only [List.length_append, List.length_cons, List.length_nil] at this ⊢
      rw [this]
      exact keepFirst_congr rest (pre ++ [x]) pre
        (by intro y; simp; intro e; exact e ▸ hx)
    · have hcond : (jsIndexOf (pre ++ x :: rest) x == (pre.length : Int)) = true := by
        rw [jsIndexOf_append_cons_of_not_mem pre rest x hx]
        simp
      have hstep : pre ++ x :: rest = (pre ++ [x]) ++ rest := by simp
      simp only [uniqueAux, hcond, if_true, keepFirst, if_neg hx]
      have := ih (pre ++ [x])
      rw [hstep]
      simp only [List.length_append, List.length_cons, List.length_nil] at this ⊢
      rw [this]

theorem jsUnique_eq_dedupFirst (l : List String) : jsUnique l = dedupFirst l := by
  have := uniqueAux_eq_keepFirst l []
  simpa [jsUnique, dedupFirst] using this

theorem mem_keepFirst (r : List String) :
    ∀ seen x, x ∈ keepFirst seen r → x ∉ seen ∧ x ∈ r := by
  induction r with
  | nil => intro seen x h; cases h
  | cons y rest ih =>
    intro seen x h
    by_cases hy : y ∈ seen
    · simp only [keepFirst, if_pos hy] at h
      obtain ⟨h₁, h₂⟩ := ih seen x h
      exact ⟨h₁, List.mem_cons_of_mem y h₂⟩
    · simp only [keepFirst, if_neg hy] at h
      cases List.mem_cons.mp h with
      | inl e => exact ⟨e ▸ hy, e ▸ List.mem_cons_self y rest⟩
      | inr hm =>
        obtain ⟨h₁, h₂⟩ := ih (seen ++ [y]) x hm
        refine ⟨fun c => h₁ (by simp [c]), List.mem_cons_of_mem y h₂⟩

theorem keepFirst_nodup (r : List String) : ∀ seen, (keepFirst seen r).Nodup := by
  induction r with
  | nil => intro seen; exact List.nodup_nil
  | cons y rest ih =>
    intro seen
    by_cases hy : y ∈ seen
    · simpa [keepFirst, if_pos hy] using ih seen
    · simp only [keepFirst, if_neg hy]
      refine List.nodup_cons.mpr ⟨fun hmem => ?_, ih (seen ++ [y])⟩
      exact (mem_keepFirst rest (seen ++ [y]) y hmem).1 (by simp)

theorem mem_keepFirst_of_mem (r : List String) :
    ∀ seen x, x ∈ r → x ∉ seen → x ∈ keepFirst seen r := by
  induction r with
  | nil => intro _ x h; cases h
  | cons y rest ih =>
    intro seen x hr hseen
    by_cases hxy : x = y
    · subst hxy
      simp only [keepFirst, if_neg hseen]
      exact List.mem_cons_self x _
    · have hrest : x ∈ rest := by
        cases List.mem_cons.mp hr with
        | inl e => exact absurd e hxy
        | inr hm => exact hm
      by_cases hy : y ∈ seen
      · simp only [keepFirst, if_pos hy]
        exact ih seen x hrest hseen
      · simp only [keepFirst, if_neg hy]
        refine List.mem_cons_of_mem y (ih (seen ++ [y]) x hrest ?_)
        simp [hseen, hxy]

/-- **C9.** The mentioned-links transform rewrites every root-relative link to
`https://github.com` prepended to it, keeps exactly the rewritten links that
start with `http` (dropping the rest), and collapses duplicates to one entry
in first-seen order: the result is the first-occurrence de-duplication
(`dedupFirst`) of the rewritten-and-filtered list, every surviving link starts
with `http`, every rewritten link starting with `http` survives, and the
result has no duplicates. -/
theorem transformLinks_correct (v : List String) :
    transformLinks v =
        dedupFirst ((v.map absolutize).filter fun t => t.startsWith "http") ∧
    (∀ t ∈ v, t.startsWith "/" = true → absolutize t = "https://github.com" ++ t) ∧
    (∀ x ∈ transformLinks v, x.startsWith "http" = true) ∧
    (∀ x ∈ (v.map absolutize).filter (fun t => t.startsWith "http"),
        x ∈ transformLinks v) ∧
    (transformLinks v).Nodup := by
  have hbase : transformLinks v =
      dedupFirst ((v.map absolutize).filter fun t => t.startsWith "http") :=
    jsUnique_eq_dedupFirst _
  refine ⟨hbase, fun t _ ht => by simp [absolutize, ht], ?_, ?_, ?_⟩
  · intro x hx
    rw [hbase] at hx
    have := (mem_keepFirst _ [] x hx).2
    exact (List.mem_filter.mp this).2
  · intro x hx
    rw [hbase]
    exact mem_keepFirst_of_mem _ [] x hx (List.not_mem_nil x)
  · rw [hbase]
    exact keepFirst_nodup _ []

/-- Witness for **C9** at a concrete input: a root-relative link (appearing
twice) and a non-HTTP link. -/
theorem transformLinks_correct_witness :
    transformLinks ["/owner/repo/issues/5", "ftp://mirror", "/owner/repo/issues/5"] =
      dedupFirst ((["/owner/repo/issues/5", "ftp://mirror", "/owner/repo/issues/5"].map
        absolutize).filter fun t => t.startsWith "http") :=
  (transformLinks_correct _).1

/-! ## Dependents pagination post-processing (`src/github/dependents.ts`, lines 88-103)

After parsing, `parseDependents` rewrites the `pagination` bucket:
`res['pagination']['next'] = raws.length > 1 ? raws[1] : raws[0]`, then matches
the chosen link against `/dependents_after=([a-zA-Z0-9]*)/`; on no match both
`next` and `after` are set to `''`, otherwise `after` becomes the captured
alphanumeric run. -/

/-- The literal part of the regex `/dependents_after=([a-zA-Z0-9]*)/`. -/
def markerChars : List Char := "dependents_after=".data

/-- The regex character class `[a-zA-Z0-9]`. -/
def isAlnumAscii (c : Char) : Bool :=
  ('a' ≤ c && c ≤ 'z') || ('A' ≤ c && c ≤ 'Z') || ('0' ≤ c && c ≤ '9')

/-- Does `m` occur at the very start of the character list? -/
def leadsWith : List Char → List Char → Bool
  | [], _ => true
  | _ :: _, [] => false
  | m :: ms, c :: cs => m == c && leadsWith ms cs

/-- Find the first occurrence of `dependents_after=`; return the characters
after it (the regex capture group is their maximal alphanumeric run). -/
def findMarker : List Char → Option (List Char)
  | [] => none
  | c :: cs =>
    if leadsWith markerChars (c :: cs) then some ((c :: cs).drop markerChars.length)
    else findMarker cs

/-- Whether `s.match(/dependents_after=([a-zA-Z0-9]*)/)` matches at all: the
capture group may be empty, so the regex matches exactly when the literal
`dependents_after=` occurs in `s`. -/
def containsMarker (s : String) : Bool := (findMarker s.data).isSome

/-- dependents.ts lines 89-92: choose the second collected href when the raw
list holds more than one, else the first. -/
def chooseNext (raws : List String) : String :=
  if raws.length > 1 then raws.getD 1 "" else raws.getD 0 ""

/-- dependents.ts lines 88-103: the whole pagination rewrite, returning the
final `(next, after)` pair of the page's `pagination` bucket. -/
def pagTransform (raws : List String) : String × String :=
  let nxt := chooseNext raws
  match findMarker nxt.data with
  | none => ("", "")
  | some rest => (nxt, String.mk (rest.takeWhile isAlnumAscii))

/-- **C10.** In the dependents parser's pagination rewrite, the second raw
href is chosen when more than one was collected, otherwise the first; and when
the chosen link has no `dependents_after=` parameter, both `next` and `after`
become the empty string (so the crawl loop stops), while a link containing the
marker is kept as `next` unchanged. -/
theorem pagTransform_correct (raws : List String) :
    (raws.length > 1 → chooseNext raws = raws.getD 1 "") ∧
    (raws.length ≤ 1 → chooseNext raws = raws.getD 0 "") ∧
    (containsMarker (chooseNext raws) = false → pagTransform raws = ("", "")) ∧
    (containsMarker (chooseNext raws) = true → (pagTransform raws).1 = chooseNext raws) := by
  refine ⟨fun h => by simp [chooseNext, h], fun h => ?_, fun h => ?_, fun h => ?_⟩
  · have : ¬ raws.length > 1 := by omega
    simp [chooseNext, this]
  · have hnone : findMarker (chooseNext raws).data = none := by
      cases hm : findMarker (chooseNext raws).data with
      | none => rfl
      | some r =>
        rw [containsMarker, hm] at h
        cases h
    simp [pagTransform, hnone]
  · simp only [containsMarker, Option.isSome_iff_exists] at h
    obtain ⟨rest, hrest⟩ := h
    simp [pagTransform, hrest]

/-- Witness for **C10**: two collected hrefs whose second carries the marker:
the second is chosen and kept as `next`. -/
theorem pagTransform_correct_witness :
    (pagTransform ["/p1", "/deps?dependents_after=Abc123"]).1 =
      chooseNext ["/p1", "/deps?dependents_after=Abc123"] :=
  (pagTransform_correct _).2.2.2 (by decide)

/-! ## JS objects and `Object.assign`

A JS object is modelled as an association list in insertion order (no duplicate
keys arise below: `setKeyS` overwrites in place or appends).  `Object.assign`
sets every own property of the source on the target in entry order; string
keys for the issues listing, a dedicated key type for the dependents listing. -/

section ObjOps

variable {κ α : Type} [BEq κ]

/-- JS `key in obj`. -/
def hasKeyS (o : List (κ × α)) (k : κ) : Bool := o.any fun p => p.1 == k

/-- JS property write `obj[k] = v`: overwrite in place when present, append
when new. -/
def setKeyS (o : List (κ × α)) (k : κ) (v : α) : List (κ × α) :=
  if hasKeyS o k then o.map fun p => if p.1 == k then (k, v) else p
  else o ++ [(k, v)]

/-- `Object.assign(acc, src)`: write every entry of `src` onto `acc` in entry
order.  (`Object.assign(full_res, full_res, res)` — issues.ts line 245,
dependents.ts line 188 — equals `Object.assign(full_res, res)`, because
assigning an object onto itself changes nothing.) -/
def objAssignS (acc src : List (κ × α)) : List (κ × α) :=
  src.foldl (fun a p => setKeyS a p.1 p.2) acc

/-- JS property read `obj[k]`. -/
def getS (o : List (κ × α)) (k : κ) : Option α :=
  (o.find? fun p => p.1 == k).map fun p => p.2

end ObjOps

section ObjOpsLemmas

variable {κ α : Type} [BEq κ] [LawfulBEq κ]

theorem find?_eq_none_of_hasKeyS_eq_false (o : List (κ × α)) (k : κ)
    (h : hasKeyS o k = false) : (o.find? fun p => p.1 == k) = none := by
  induction o with
  | nil => rfl
  | cons p t ih =>
    simp only [hasKeyS, List.any_cons, Bool.or_eq_false_iff] at h
    rw [List.find?_cons]
    simp only [h.1]
    exact ih h.2

theorem find?_map_overwrite (t : List (κ × α)) (k : κ) (v : α)
    (h : hasKeyS t k = true) :
    ((t.map fun p => if p.1 == k then (k, v) else p).find? fun p => p.1 == k) =
      some (k, v) := by
  induction t with
  | nil => cases h
  | cons p t ih =>
    cases hp : (p.1 == k) with
    | true =>
      simp only [List.map_cons, if_pos hp, List.find?_cons]
      simp
    | false =>
      have ht : hasKeyS t k = true := by
        simpa [hasKeyS, List.any_cons, hp] using h
      simp only [List.map_cons, List.find?_cons, hp, Bool.false_eq_true, if_false]
      exact ih ht

theorem find?_map_overwrite_other (t : List (κ × α)) (k k' : κ) (v : α)
    (hne : k' ≠ k) :
    ((t.map fun p => if p.1 == k then (k, v) else p).find? fun p => p.1 == k') =
      t.find? fun p => p.1 == k' := by
  induction t with
  | nil => rfl
  | cons p t ih =>
    cases hp : (p.1 == k) with
    | true =>
      have hk : p.1 = k := eq_of_beq hp
      have h1 : (k == k') = false := by
        rw [beq_eq_false_iff_ne]
        exact fun e => hne e.symm
      have h2 : (p.1 == k') = false := by
        rw [beq_eq_false_iff_ne, hk]
        exact fun e => hne e.symm
      simp only [List.map_cons, if_pos hp, List.find?_cons, h1, h2, ih]
    | false =>
      simp only [List.map_cons, if_neg (by simp [hp] : ¬ (p.1 == k) = true),
        List.find?_cons]
      cases hq : (p.1 == k') with
      | true => simp
      | false => simpa using ih

theorem getS_setKeyS_same (o : List (κ × α)) (k : κ) (v : α) :
    getS (setKeyS o k v) k = some v := by
  rw [setKeyS]
  by_cases h : hasKeyS o k = true
  · rw [if_pos h, getS, find?_map_overwrite o k v h]
    rfl
  · rw [if_neg h, getS, List.find?_append,
      find?_eq_none_of_hasKeyS_eq_false o k (Bool.eq_false_iff.mpr h)]
    simp

theorem getS_setKeyS_other (o : List (κ × α)) (k k' : κ) (v : α)
    (hne : k' ≠ k) : getS (setKeyS o k v) k' = getS o k' := by
  rw [setKeyS]
  by_cases h : hasKeyS o k = true
  · rw [if_pos h, getS, getS, find?_map_overwrite_other o k k' v hne]
  · rw [if_neg h, getS, getS, List.find?_append]
    have hlast : (([(k, v)] : List (κ × α)).find? fun p => p.1 == k') = none := by
      have : (k == k') = false := by
        rw [beq_eq_false_iff_ne]
        exact fun e => hne e.symm
      simp [List.find?_cons, this]
    rw [hlast]
    simp

theorem hasKeyS_iff_mem (o : List (κ × α)) (k : κ) :
    hasKeyS o k = true ↔ k ∈ o.map Prod.fst := by
  simp only [hasKeyS, List.any_eq_true, List.mem_map]
  constructor
  · rintro ⟨p, hp, he⟩
    exact ⟨p, hp, eq_of_beq he⟩
  · rintro ⟨p, hp, he⟩
    refine ⟨p, hp, ?_⟩
    rw [he]
    exact beq_self_eq_true k

theorem getS_objAssignS_of_not_mem (src : List (κ × α)) :
    ∀ acc k, hasKeyS src k = false →
      getS (objAssignS acc src) k = getS acc k := by
  induction src with
  | nil => intro acc k _; rfl
  | cons p t ih =>
    intro acc k h
    simp only [hasKeyS, List.any_cons, Bool.or_eq_false_iff] at h
    have hstep : objAssignS acc (p :: t) = objAssignS (setKeyS acc p.1 p.2) t := rfl
    rw [hstep, ih (setKeyS acc p.1 p.2) k (by simpa [hasKeyS] using h.2)]
    exact getS_setKeyS_other acc p.1 k p.2
      (fun e => by simp [e] at h)

theorem getS_objAssignS_of_mem (src : List (κ × α)) :
    ∀ acc k, (src.map Prod.fst).Nodup → hasKeyS src k = true →
      getS (objAssignS acc src) k = getS src k := by
  induction src with
  | nil => intro acc k _ h; cases h
  | cons p t ih =>
    intro acc k hnd h
    simp only [List.map_cons, List.nodup_cons] at hnd
    have hstep : objAssignS acc (p :: t) = objAssignS (setKeyS acc p.1 p.2) t := rfl
    cases hp : (p.1 == k) with
    | true =>
      have hk : p.1 = k := eq_of_beq hp
      have htk : hasKeyS t k = false := by
        rw [Bool.eq_false_iff]
        intro hc
        exact hnd.1 (hk ▸ (hasKeyS_iff_mem t k).mp hc)
      rw [hstep, getS_objAssignS_of_not_mem t (setKeyS acc p.1 p.2) k htk, hk,
        getS_setKeyS_same, getS, List.find?_cons]
      simp only [hp]
      rfl
    | false =>
      have htk : hasKeyS t k = true := by
        simpa [hasKeyS, List.any_cons, hp] using h
      rw [hstep, ih (setKeyS acc p.1 p.2) k hnd.2 htk, getS, getS, List.find?_cons]
      simp only [hp]

end ObjOpsLemmas

/-! ## Claim theorems: union-by-scraped-id merge (`src/github/issues.ts`, lines 229-247) -/

/-- **C4, counterexample.** The accumulator holds entity key `"5"` with value 1;
the later page also holds key `"5"` with value 2.  `Object.assign(full_res,
full_res, res)` *replaces* the accumulator's value: the merge does change the
value stored under an entity key that is already present, contradicting the
claim that only the `pagination` bucket is ever replaced. -/
theorem objAssignS_changes_existing_entity_key :
    getS (objAssignS [("5", 1), ("pagination", 9)] [("5", 2), ("pagination", 7)]) "5" =
        some 2 ∧
      getS [("5", 1), ("pagination", 9)] "5" = some 1 ∧ (2 : Nat) ≠ 1 := by
  refine ⟨?_, rfl, by decide⟩
  rfl

/-- **C4, amended.** Merging a later page into the accumulator with
`Object.assign` follows later-page-wins for *every* key of the incoming page,
the `pagination` bucket included: a key absent from the incoming page keeps the
accumulator's value, and a key present in the incoming page (its keys are
unique, as JS object keys are) ends up with the incoming page's value —
whether or not the accumulator already had it. -/
theorem objAssignS_later_page_wins {α : Type} (acc src : List (String × α))
    (k : String) (hnd : (src.map Prod.fst).Nodup) :
    (hasKeyS src k = false → getS (objAssignS acc src) k = getS acc k) ∧
    (hasKeyS src k = true → getS (objAssignS acc src) k = getS src k) :=
  ⟨fun h => getS_objAssignS_of_not_mem src acc k h,
   fun h => getS_objAssignS_of_mem src acc k hnd h⟩

/-- Witness for the amended **C4**: a fresh key is added without touching the
existing entry, and a colliding key takes the later page's value. -/
theorem objAssignS_later_page_wins_witness :
    getS (objAssignS [("5", 1)] [("7", 2)]) "5" = getS [("5", 1)] "5" ∧
      getS (objAssignS [("5", 1)] [("5", 2)]) "5" = getS [("5", 2)] "5" :=
  ⟨(objAssignS_later_page_wins [("5", 1)] [("7", 2)] "5" (by decide)).1 (by decide),
   (objAssignS_later_page_wins [("5", 1)] [("5", 2)] "5" (by decide)).2 (by decide)⟩

/-! ## Crawl-loop fetch count (issues.ts lines 224-247, dependents.ts lines 161-190)

Both handlers share the same page-walking skeleton: one initial fetch+parse,
`pageCount = 1`, then `while (<res has a truthy pagination.next> && pageCount <
maxPages) { fetch; parse; merge; pageCount += 1 }`.  Here only the number of
fetches matters, so the parsed pages are reduced to `hasNext i`, the truthiness
of the `pagination.next` of the `i`-th parsed page (counting the initial page
as `i = 0`); `pageCount < maxPages` is rendered as the remaining fuel
`maxPages - pageCount`. -/

/-- The `while` loop of `GetIssues.handle` / `GetDependents.handle`, returning
the total fetch count: `fuel = maxPages - pageCount`, `cur` is the index of
the page parsed most recently, `count` the fetches performed so far. -/
def crawlFetches (hasNext : Nat → Bool) : Nat → Nat → Nat → Nat
  | 0, _, count => count
  | fuel + 1, cur, count =>
    if hasNext cur then crawlFetches hasNext fuel (cur + 1) (count + 1)
    else count

/-- Total number of page fetches a crawl with ceiling `maxPages` performs: the
initial fetch plus the loop's. -/
def crawlFetchCount (hasNext : Nat → Bool) (maxPages : Nat) : Nat :=
  crawlFetches hasNext (maxPages - 1) 0 1

theorem crawlFetches_le (hasNext : Nat → Bool) :
    ∀ fuel cur count, crawlFetches hasNext fuel cur count ≤ count + fuel := by
  intro fuel
  induction fuel with
  | zero => intro cur count; exact Nat.le_refl _
  | succ f ih =>
    intro cur count
    rw [crawlFetches]
    by_cases h : hasNext cur = true
    · rw [if_pos h]
      calc crawlFetches hasNext f (cur + 1) (count + 1) ≤ (count + 1) + f := ih _ _
        _ = count + (f + 1) := by omega
    · rw [if_neg h]
      omega

theorem crawlFetches_all_next (hasNext : Nat → Bool)
    (hall : ∀ i, hasNext i = true) :
    ∀ fuel cur count, crawlFetches hasNext fuel cur count = count + fuel := by
  intro fuel
  induction fuel with
  | zero => intro cur count; rfl
  | succ f ih =>
    intro cur count
    rw [crawlFetches, if_pos (hall cur), ih]
    omega

/-- **C5.** With page-count ceiling `maxPages = k ≥ 1`, and every parsed page
offering a non-empty `pagination.next`, the crawl loop performs at most `k`
fetches in total (here: exactly `k`, since a next link is always offered);
with `k = 1` the loop body never runs and exactly one fetch (the initial one)
occurs. -/
theorem crawlFetchCount_bounded (hasNext : Nat → Bool) (k : Nat)
    (hk : 1 ≤ k) (hall : ∀ i, hasNext i = true) :
    crawlFetchCount hasNext k ≤ k ∧ (k = 1 → crawlFetchCount hasNext k = 1) := by
  have heq : crawlFetchCount hasNext k = 1 + (k - 1) :=
    crawlFetches_all_next hasNext hall (k - 1) 0 1
  constructor
  · omega
  · intro h1
    rw [h1]
    rfl

/-- Witness for **C5**: a source that always offers a next link, `maxPages = 3`. -/
theorem crawlFetchCount_bounded_witness :
    crawlFetchCount (fun _ => true) 3 ≤ 3 ∧
      (3 = 1 → crawlFetchCount (fun _ => true) 3 = 1) :=
  crawlFetchCount_bounded (fun _ => true) 3 (by decide) (fun _ => rfl)

/-! ## Issues page parse and error propagation (`src/github/issues.ts`)

`parseIssues` (lines 83-179) registers a `KeyRule` on `.js-issue-row` that
reads the element's `id` attribute, throws `missing id in js-issue-row` when
it is absent (lines 87-95), extracts the digit groups of the id and keys
subsequent fields by the last one.  All other rules push one raw value under
the current key (or an override key such as `pagination`).  A page's token
stream is abstracted into the sequence of rule firings it produces: a key-rule
firing carries the matched element's optional `id` attribute, a field firing
carries the field name, the pushed value and the optional override key.

`GetIssues.handle` (lines 198-273) fetches and parses page after page,
merging with `Object.assign`; a thrown parse error propagates out of `handle`
(`await parseIssues` rejects), so the result of a crawl is `Except`: either
the merged accumulator or the error alone — an `.error` result carries no
accumulator at all.  The loop reads `res.pagination.next` after the field
transforms joined the collected raw values (line 152), rendered here by
joining at the point of use. -/

/-- One rule firing while streaming an issues page. -/
inductive IssueEv where
  | issueRow (idAttr : Option String)
  | fieldVal (name : String) (value : String) (overrideKey : Option String)
  deriving DecidableEq

/-- An issues record collection: key ↦ (field name ↦ collected raw values). -/
abbrev IObj := List (String × List (String × List String))

/-- `name in fields || (fields[name] = []); fields[name].push(v)`
(htmlparser.ts lines 48-49 and analogues). -/
def pushPair (fields : List (String × List String)) (name v : String) :
    List (String × List String) :=
  if fields.any (fun p => p.1 == name) then
    fields.map fun p => if p.1 == name then (p.1, p.2 ++ [v]) else p
  else fields ++ [(name, [v])]

/-- `key in res || (res[key] = {})`, then push `v` on `res[key][name]`
(htmlparser.ts lines 47-50). -/
def pushField (o : IObj) (k name v : String) : IObj :=
  if o.any (fun p => p.1 == k) then
    o.map fun p => if p.1 == k then (p.1, pushPair p.2 name v) else p
  else o ++ [(k, pushPair [] name v)]

/-- The `KeyRule` callback of `parseIssues` (issues.ts lines 87-95): no `id`
attribute is a thrown error; no digit group keeps the key unchanged; else the
key becomes the last digit group (`matches.pop()`). -/
def deriveIssueKey (idAttr : Option String) (key : String) : Except String String :=
  match idAttr with
  | none => .error "missing id in js-issue-row"
  | some id =>
    match digitGroups id with
    | [] => .ok key
    | g :: gs => .ok ((g :: gs).getLastD "")

/-- One rule firing applied to the parser state `(key, res)`. -/
def issuesStep (st : String × IObj) : IssueEv → Except String (String × IObj)
  | .issueRow idAttr =>
    match deriveIssueKey idAttr st.1 with
    | .error e => .error e
    | .ok k => .ok (k, st.2)
  | .fieldVal name v okey =>
    .ok (st.1, pushField st.2 (okey.getD st.1) name v)

/-- Run all rule firings of one page in order; a thrown error aborts the page. -/
def runIssueEvents : String × IObj → List IssueEv → Except String (String × IObj)
  | st, [] => .ok st
  | st, e :: es =>
    match issuesStep st e with
    | .error msg => .error msg
    | .ok st' => runIssueEvents st' es

/-- `parseIssues` on one page: run the rules from the sentinel/empty state and
return the record collection. -/
def parseIssuesM (evs : List IssueEv) : Except String IObj :=
  match runIssueEvents ("$keyIsNull", []) evs with
  | .error e => .error e
  | .ok st => .ok st.2

/-- `res['pagination']['next']` after the join transform (issues.ts line 152). -/
def nextOfIssues (res : IObj) : Option String :=
  match res.find? (fun p => p.1 == "pagination") with
  | none => none
  | some q =>
    match q.2.find? (fun p => p.1 == "next") with
    | none => none
    | some vs => some (String.join vs.2)

/-- The loop guard of `GetIssues.handle` (issues.ts lines 229-237):
`'pagination' in res && 'next' in res.pagination && res.pagination.next`. -/
def truthyNext (res : IObj) : Bool :=
  match nextOfIssues res with
  | some s => s != ""
  | none => false

/-- The `while` loop of `GetIssues.handle` (issues.ts lines 229-247) in the
`Except` monad: fetch+parse the next page, `Object.assign` it onto the
accumulator, stop on a falsy next link or an exhausted page budget; a parse
error propagates immediately, discarding the accumulator. -/
def issuesCrawlLoop (pages : Nat → List IssueEv) :
    Nat → Nat → IObj → IObj → Except String IObj
  | 0, _, full, _ => .ok full
  | fuel + 1, idx, full, res =>
    if truthyNext res then
      match parseIssuesM (pages idx) with
      | .error e => .error e
      | .ok res2 => issuesCrawlLoop pages fuel (idx + 1) (objAssignS full res2) res2
    else .ok full

/-- The whole multi-page issues crawl of `GetIssues.handle`: initial
fetch+parse, then the loop with `pageCount = 1`. -/
def issuesCrawl (pages : Nat → List IssueEv) (maxPages : Nat) : Except String IObj :=
  match parseIssuesM (pages 0) with
  | .error e => .error e
  | .ok res => issuesCrawlLoop pages (maxPages - 1) 1 res res

/-- A page whose parse succeeds and offers a truthy next link. -/
def goodPage (evs : List IssueEv) : Bool :=
  match parseIssuesM evs with
  | .ok r => truthyNext r
  | .error _ => false

theorem issuesStep_ok_of_ne (st : String × IObj) (e : IssueEv)
    (h : e ≠ .issueRow none) : ∃ st2, issuesStep st e = .ok st2 := by
  cases e with
  | issueRow idAttr =>
    cases idAttr with
    | none => exact absurd rfl h
    | some id =>
      cases hdg : digitGroups id with
      | nil => exact ⟨(st.1, st.2), by simp [issuesStep, deriveIssueKey, hdg]⟩
      | cons g gs =>
        exact ⟨((g :: gs).getLastD "", st.2), by simp [issuesStep, deriveIssueKey, hdg]⟩
  | fieldVal name v okey => exact ⟨_, rfl⟩

theorem runIssueEvents_error (evs : List IssueEv) :
    ∀ st, IssueEv.issueRow none ∈ evs →
      runIssueEvents st evs = .error "missing id in js-issue-row" := by
  induction evs with
  | nil => intro st h; cases h
  | cons e es ih =>
    intro st h
    by_cases he : e = .issueRow none
    · subst he
      rfl
    · obtain ⟨st2, hst2⟩ := issuesStep_ok_of_ne st e he
      have hmem : IssueEv.issueRow none ∈ es := by
        cases List.mem_cons.mp h with
        | inl hh => exact absurd hh.symm he
        | inr hh => exact hh
      simp only [runIssueEvents, hst2]
      exact ih st2 hmem

/-- A page containing a `.js-issue-row` without an `id` attribute aborts the
page's parse with the thrown error. -/
theorem parseIssuesM_error (evs : List IssueEv)
    (h : IssueEv.issueRow none ∈ evs) :
    parseIssuesM evs = .error "missing id in js-issue-row" := by
  rw [parseIssuesM, runIssueEvents_error evs _ h]

theorem goodPage_elim (evs : List IssueEv) (h : goodPage evs = true) :
    ∃ r, parseIssuesM evs = .ok r ∧ truthyNext r = true := by
  cases hp : parseIssuesM evs with
  | error e =>
    rw [goodPage, hp] at h
    cases h
  | ok r =>
    rw [goodPage, hp] at h
    exact ⟨r, rfl, h⟩

theorem issuesCrawlLoop_error (pages : Nat → List IssueEv) :
    ∀ j fuel idx full res, j < fuel → truthyNext res = true →
      (∀ i, i < j → goodPage (pages (idx + i)) = true) →
      IssueEv.issueRow none ∈ pages (idx + j) →
      issuesCrawlLoop pages fuel idx full res =
        .error "missing id in js-issue-row" := by
  intro j
  induction j with
  | zero =>
    intro fuel idx full res hf ht _ hbad
    cases fuel with
    | zero => omega
    | succ f =>
      rw [Nat.add_zero] at hbad
      simp only [issuesCrawlLoop, if_pos ht, parseIssuesM_error _ hbad]
  | succ j ih =>
    intro fuel idx full res hf ht hgood hbad
    cases fuel with
    | zero => omega
    | succ f =>
      obtain ⟨r, hok, htr⟩ := goodPage_elim _ (hgood 0 (Nat.succ_pos j))
      rw [Nat.add_zero] at hok
      simp only [issuesCrawlLoop, if_pos ht, hok]
      refine ih f (idx + 1) (objAssignS full r) r (by omega) htr ?_ ?_
      · intro i hi
        have := hgood (i + 1) (by omega)
        rwa [show idx + (i + 1) = idx + 1 + i by omega] at this
      · rwa [show idx + (j + 1) = idx + 1 + j by omega] at hbad

/-- **C6.** If a `KeyRule`-matched `.js-issue-row` element on any fetched page
of a multi-page issues crawl lacks its `id` attribute, the parse of that page
throws `missing id in js-issue-row`, the error propagates out of the crawl,
and the crawl's result is the bare error — no partial accumulator for the
pages already merged is returned (`Except.error` carries no collection). -/
theorem issuesCrawl_aborts (pages : Nat → List IssueEv) (maxPages j : Nat)
    (hj : j < maxPages)
    (hgood : ∀ i, i < j → goodPage (pages i) = true)
    (hbad : IssueEv.issueRow none ∈ pages j) :
    issuesCrawl pages maxPages = .error "missing id in js-issue-row" := by
  cases j with
  | zero =>
    rw [issuesCrawl, parseIssuesM_error _ hbad]
  | succ j =>
    obtain ⟨r, hok, htr⟩ := goodPage_elim _ (hgood 0 (Nat.succ_pos j))
    simp only [issuesCrawl, hok]
    refine issuesCrawlLoop_error pages j (maxPages - 1) 1 r r (by omega) htr ?_ ?_
    · intro i hi
      have := hgood (i + 1) (by omega)
      rwa [show i + 1 = 1 + i by omega] at this
    · rwa [show j + 1 = 1 + j by omega] at hbad

/-- A concrete two-page crawl: page 0 parses fine (row id `issue_12`, next
link under the `pagination` bucket), page 1 has a `.js-issue-row` without
an `id` attribute. -/
def issuePagesBadSecond : Nat → List IssueEv := fun i =>
  match i with
  | 0 => [IssueEv.issueRow (some "issue_12"),
          IssueEv.fieldVal "next" "/page2" (some "pagination")]
  | _ => [IssueEv.issueRow none]

/-- Witness for **C6**: the concrete two-page crawl aborts with the error. -/
theorem issuesCrawl_aborts_witness :
    issuesCrawl issuePagesBadSecond 2 = .error "missing id in js-issue-row" :=
  issuesCrawl_aborts issuePagesBadSecond 2 1 (by decide)
    (fun i hi => by
      have h0 : i = 0 := by omega
      subst h0
      decide)
    (by decide)

/-! ## Dependents crawl: the shift-by-count merge (`src/github/dependents.ts`)

`parseDependents` (lines 34-106) keys each `div.Box-row` by a page-local
ordinal (`0, 1, 2, …` — the `KeyRule` increments a counter), collects the
entity fields under it, and puts the (transformed) `next`/`after` strings in
the `pagination` bucket; the sentinel `$keyIsNull` bucket may also be present.
`GetDependents.handle` (lines 150-218) walks pages; before merging with
`Object.assign`, it renumbers the incoming page's numeric keys by
`parseInt(k) + Object.keys(full_res).length` (lines 179-187) — the *total*
number of keys of the accumulator, `pagination`/`$keyIsNull` included.

Page keys are modelled by a dedicated key type (`num` for the ordinal keys,
`pagination`, `keyIsNull`), values by an entity payload or the pagination
record, so the merge arithmetic is exactly the source's. -/

/-- A key of a dependents record collection. -/
inductive DKey where
  | num (n : Nat)
  | pagination
  | keyIsNull
  deriving DecidableEq

/-- A value of a dependents record collection: an entity record (opaque
payload) or the transformed pagination bucket `{next, after}`. -/
inductive DVal (α : Type) where
  | ent (a : α)
  | pag (next after : String)
  deriving DecidableEq

/-- A dependents record collection / crawl accumulator, in insertion order. -/
abbrev DepObj (α : Type) := List (DKey × DVal α)

/-- dependents.ts lines 179-187: renumber the page's numeric keys by the
accumulator's total key count (`parseInt(k) + Object.keys(full_res).length`);
`pagination` and `$keyIsNull` keys pass through. -/
def depShift {α : Type} (res : DepObj α) (len : Nat) : DepObj α :=
  res.map fun p =>
    match p.1 with
    | .num k => (DKey.num (k + len), p.2)
    | k => (k, p.2)

/-- dependents.ts line 188: `Object.assign(full_res, full_res, res_mutated)`
after the renumbering. -/
def depMerge {α : Type} (full res : DepObj α) : DepObj α :=
  objAssignS full (depShift res full.length)

/-- `res['pagination']['next']` (after `parseDependents`'s transform the value
is a single string). -/
def depNext {α : Type} (res : DepObj α) : Option String :=
  match res.find? (fun p => p.1 == DKey.pagination) with
  | some q =>
    match q.2 with
    | .pag nxt _ => some nxt
    | _ => none
  | none => none

/-- The `while` loop of `GetDependents.handle` (dependents.ts lines 166-190):
continue while the last page's `pagination.next` is truthy and the page budget
remains; each iteration fetches+parses the next page and merges it with the
shift-by-key-count renumbering. -/
def depCrawlLoop {α : Type} (pages : Nat → DepObj α) :
    Nat → Nat → DepObj α → DepObj α → DepObj α
  | 0, _, full, _ => full
  | fuel + 1, idx, full, res =>
    match depNext res with
    | some nxt =>
      if nxt != "" then
        depCrawlLoop pages fuel (idx + 1) (depMerge full (pages idx)) (pages idx)
      else full
    | none => full

/-- The whole dependents crawl: `full_res = {...res}` of the first page, then
the loop with `pageCount = 1`. -/
def depCrawl {α : Type} (pages : Nat → DepObj α) (maxPages : Nat) : DepObj α :=
  depCrawlLoop pages (maxPages - 1) 1 (pages 0) (pages 0)

/-- The numeric (entity) keys of an accumulator, in entry order. -/
def entityKeys {α : Type} (o : DepObj α) : List Nat :=
  o.filterMap fun p =>
    match p.1 with
    | .num k => some k
    | _ => none

/-- The collection `parseDependents` yields for a page with `n` dependents and
a pagination bucket: entity records under the page-local ordinals `0 … n-1`
(payload: page number and ordinal), then `pagination`. -/
def mkDepPage (n pageIdx : Nat) (nxt after : String) : DepObj (Nat × Nat) :=
  ((List.range n).map fun k => (DKey.num k, DVal.ent (pageIdx, k))) ++
    [(DKey.pagination, DVal.pag nxt after)]

/-- A three-page dependents crawl whose pages hold one dependent each. -/
def depPagesUnit : Nat → DepObj (Nat × Nat) := fun i =>
  match i with
  | 0 => mkDepPage 1 0 "/next1" "A1"
  | 1 => mkDepPage 1 1 "/next2" "A2"
  | _ => mkDepPage 1 2 "" ""

/-- Entity records with keys `c, c+1, …, c+n-1` (page `pageIdx`'s records
after a shift by `c`; `c = 0` gives a freshly parsed page's entity part). -/
def entRun (n c pageIdx : Nat) : DepObj (Nat × Nat) :=
  (List.range n).map fun k => (DKey.num (k + c), DVal.ent (pageIdx, k))

/-- Every key of `o` is `pagination` or a numeric key below `m`. -/
def keysBelow {α : Type} (o : DepObj α) (m : Nat) : Prop :=
  ∀ p ∈ o, p.1 = DKey.pagination ∨ ∃ k, p.1 = DKey.num k ∧ k < m

section ObjAssignAppend

variable {κ α : Type} [BEq κ] [LawfulBEq κ]

theorem map_id_of_mem {β : Type} (l : List β) (f : β → β)
    (h : ∀ a ∈ l, f a = a) : l.map f = l := by
  induction l with
  | nil => rfl
  | cons a t ih =>
    rw [List.map_cons, h a (List.mem_cons_self a t),
      ih fun b hb => h b (List.mem_cons_of_mem a hb)]

theorem hasKeyS_append (a b : List (κ × α)) (k : κ) :
    hasKeyS (a ++ b) k = (hasKeyS a k || hasKeyS b k) := by
  simp [hasKeyS, List.any_append]

theorem objAssignS_append (acc xs ys : List (κ × α)) :
    objAssignS acc (xs ++ ys) = objAssignS (objAssignS acc xs) ys := by
  simp [objAssignS, List.foldl_append]

theorem objAssignS_fresh (src : List (κ × α)) :
    ∀ acc, (∀ p ∈ src, hasKeyS acc p.1 = false) → (src.map Prod.fst).Nodup →
      objAssignS acc src = acc ++ src := by
  induction src with
  | nil => intro acc _ _; simp [objAssignS]
  | cons p t ih =>
    intro acc hfresh hnd
    simp only [List.map_cons, List.nodup_cons] at hnd
    have hstep : objAssignS acc (p :: t) = objAssignS (setKeyS acc p.1 p.2) t := rfl
    have hset : setKeyS acc p.1 p.2 = acc ++ [p] := by
      rw [setKeyS, if_neg (by rw [hfresh p (List.mem_cons_self p t)]; exact Bool.false_ne_true)]
    rw [hstep, hset, ih (acc ++ [p]) ?_ hnd.2]
    · simp
    · intro q hq
      rw [hasKeyS_append]
      have h1 : hasKeyS acc q.1 = false := hfresh q (List.mem_cons_of_mem p hq)
      have h2 : hasKeyS [p] q.1 = false := by
        simp only [hasKeyS, List.any_cons, List.any_nil, Bool.or_false]
        rw [beq_eq_false_iff_ne]
        intro e
        exact hnd.1 (e ▸ List.mem_map_of_mem Prod.fst hq)
      rw [h1, h2]
      rfl

theorem setKeyS_replace_middle (E B : List (κ × α)) (k : κ) (w v : α)
    (hE : ∀ p ∈ E, (p.1 == k) = false)
    (hB : ∀ p ∈ B, (p.1 == k) = false) :
    setKeyS (E ++ (k, w) :: B) k v = E ++ (k, v) :: B := by
  have hhas : hasKeyS (E ++ (k, w) :: B) k = true := by
    rw [hasKeyS_append]
    have : hasKeyS ((k, w) :: B) k = true := by
      simp only [hasKeyS, List.any_cons]
      rw [show ((k, w).1 == k) = true from beq_self_eq_true k]
      rfl
    rw [this, Bool.or_true]
  rw [setKeyS, if_pos hhas, List.map_append, List.map_cons]
  congr 1
  · refine map_id_of_mem E _ fun p hp => ?_
    rw [if_neg]
    rw [hE p hp]
    exact Bool.false_ne_true
  · congr 1
    · rw [if_pos (beq_self_eq_true k)]
    · refine map_id_of_mem B _ fun p hp => ?_
      rw [if_neg]
      rw [hB p hp]
      exact Bool.false_ne_true

end ObjAssignAppend

theorem num_beq_pagination (k : Nat) : (DKey.num k == DKey.pagination) = false := by
  rw [beq_eq_false_iff_ne]
  intro h
  cases h

theorem entRun_no_pagination (n c i : Nat) :
    ∀ p ∈ entRun n c i, (p.1 == DKey.pagination) = false := by
  intro p hp
  simp only [entRun, List.mem_map, List.mem_range] at hp
  obtain ⟨k, _, rfl⟩ := hp
  exact num_beq_pagination (k + c)

theorem hasKeyS_num_of_keysBelow {α : Type} (o : DepObj α) (m j : Nat)
    (hb : keysBelow o m) (hj : m ≤ j) : hasKeyS o (DKey.num j) = false := by
  rw [hasKeyS, List.any_eq_false]
  intro p hp
  rcases hb p hp with hpag | ⟨k, hk, hlt⟩
  · rw [hpag, beq_iff_eq]
    intro h
    cases h
  · rw [hk, beq_iff_eq]
    intro h
    cases h
    omega

theorem entRun_keys_nodup (n c i : Nat) :
    ((entRun n c i).map Prod.fst).Nodup := by
  rw [entRun, List.map_map]
  have : (Prod.fst ∘ fun k => (DKey.num (k + c), DVal.ent (i, k))) =
      fun k => DKey.num (k + c) := rfl
  rw [this]
  refine List.Nodup.map ?_ (List.nodup_range n)
  intro a b hab
  injection hab with h
  omega

theorem entRun_fresh (o : DepObj (Nat × Nat)) (m n c i : Nat)
    (hb : keysBelow o m) (hc : m ≤ c) :
    ∀ p ∈ entRun n c i, hasKeyS o p.1 = false := by
  intro p hp
  simp only [entRun, List.mem_map, List.mem_range] at hp
  obtain ⟨k, _, rfl⟩ := hp
  exact hasKeyS_num_of_keysBelow o m (k + c) hb (by omega)

theorem depShift_mkDepPage (n i : Nat) (nxt after : String) (m : Nat) :
    depShift (mkDepPage n i nxt after) m =
      entRun n m i ++ [(DKey.pagination, DVal.pag nxt after)] := by
  rw [mkDepPage, depShift, List.map_append, List.map_map]
  rfl

theorem depMerge_shape (E F : DepObj (Nat × Nat)) (w : DVal (Nat × Nat))
    (n pageIdx : Nat) (nxt after : String)
    (hE : ∀ p ∈ E, (p.1 == DKey.pagination) = false)
    (hF : ∀ p ∈ F, (p.1 == DKey.pagination) = false)
    (hbound : keysBelow (E ++ (DKey.pagination, w) :: F) (E.length + 1 + F.length)) :
    depMerge (E ++ (DKey.pagination, w) :: F) (mkDepPage n pageIdx nxt after) =
      E ++ (DKey.pagination, DVal.pag nxt after) ::
        (F ++ entRun n (E.length + 1 + F.length) pageIdx) := by
  have hlen : (E ++ (DKey.pagination, w) :: F).length = E.length + 1 + F.length := by
    simp only [List.length_append, List.length_cons]
    omega
  rw [depMerge, hlen, depShift_mkDepPage, objAssignS_append,
    objAssignS_fresh _ _ (entRun_fresh _ (E.length + 1 + F.length) n _ pageIdx hbound (Nat.le_refl _))
      (entRun_keys_nodup n (E.length + 1 + F.length) pageIdx)]
  have hassoc : (E ++ (DKey.pagination, w) :: F) ++ entRun n (E.length + 1 + F.length) pageIdx =
      E ++ (DKey.pagination, w) :: (F ++ entRun n (E.length + 1 + F.length) pageIdx) := by
    simp
  rw [hassoc]
  have hsingle : objAssignS
      (E ++ (DKey.pagination, w) :: (F ++ entRun n (E.length + 1 + F.length) pageIdx))
      [(DKey.pagination, DVal.pag nxt after)] =
      setKeyS (E ++ (DKey.pagination, w) :: (F ++ entRun n (E.length + 1 + F.length) pageIdx))
        DKey.pagination (DVal.pag nxt after) := rfl
  rw [hsingle, setKeyS_replace_middle _ _ _ _ _ hE ?_]
  intro p hp
  rcases List.mem_append.mp hp with h | h
  · exact hF p h
  · exact entRun_no_pagination n _ pageIdx p h

theorem entRun_length (n c i : Nat) : (entRun n c i).length = n := by
  simp [entRun]

theorem filterMap_some_comp {β γ : Type} (f : β → γ) (l : List β) :
    l.filterMap (fun x => some (f x)) = l.map f := by
  induction l with
  | nil => rfl
  | cons a t ih => simp [List.filterMap_cons, ih]

theorem entityKeys_entRun (n c i : Nat) :
    entityKeys (entRun n c i) = (List.range n).map (· + c) := by
  rw [entityKeys, entRun, List.filterMap_map]
  exact filterMap_some_comp (fun k => k + c) (List.range n)

theorem entityKeys_append {α : Type} (a b : DepObj α) :
    entityKeys (a ++ b) = entityKeys a ++ entityKeys b := by
  simp [entityKeys, List.filterMap_append]

theorem entityKeys_cons_pagination {α : Type} (v : DVal α) (rest : DepObj α) :
    entityKeys ((DKey.pagination, v) :: rest) = entityKeys rest := rfl

theorem depNext_mkDepPage (n i : Nat) (nxt after : String) :
    depNext (mkDepPage n i nxt after) = some nxt := by
  have hents : List.find? (fun p => p.1 == DKey.pagination)
      ((List.range n).map fun k => (DKey.num k, DVal.ent ((i, k) : Nat × Nat))) = none := by
    rw [List.find?_eq_none]
    intro p hp
    simp only [List.mem_map, List.mem_range] at hp
    obtain ⟨k, _, rfl⟩ := hp
    simp [num_beq_pagination]
  have hfind : (mkDepPage n i nxt after).find? (fun p => p.1 == DKey.pagination) =
      some (DKey.pagination, DVal.pag nxt after) := by
    rw [mkDepPage, List.find?_append, hents]
    simp
  rw [depNext, hfind]

theorem depCrawlLoop_step {α : Type} (pages : Nat → DepObj α) (fuel idx : Nat)
    (full res : DepObj α) (nxt : String)
    (hn : depNext res = some nxt) (hne : nxt ≠ "") :
    depCrawlLoop pages (fuel + 1) idx full res =
      depCrawlLoop pages fuel (idx + 1) (depMerge full (pages idx)) (pages idx) := by
  rw [depCrawlLoop, hn]
  show (if (nxt != "") = true then
      depCrawlLoop pages fuel (idx + 1) (depMerge full (pages idx)) (pages idx)
    else full) = _
  rw [if_pos (bne_iff_ne.mpr hne)]

/-- The three-page dependents crawl of the claim: page `i` holds `n_i`
entity records plus a pagination bucket. -/
def dep3Pages (n0 n1 n2 : Nat) (nxt0 nxt1 nxt2 a0 a1 a2 : String) :
    Nat → DepObj (Nat × Nat) := fun i =>
  match i with
  | 0 => mkDepPage n0 0 nxt0 a0
  | 1 => mkDepPage n1 1 nxt1 a1
  | _ => mkDepPage n2 2 nxt2 a2

theorem depCrawl_dep3Pages (n0 n1 n2 : Nat) (nxt0 nxt1 nxt2 a0 a1 a2 : String)
    (h0 : nxt0 ≠ "") (h1 : nxt1 ≠ "") :
    depCrawl (dep3Pages n0 n1 n2 nxt0 nxt1 nxt2 a0 a1 a2) 3 =
      depMerge (depMerge (mkDepPage n0 0 nxt0 a0) (mkDepPage n1 1 nxt1 a1))
        (mkDepPage n2 2 nxt2 a2) :=
  calc depCrawl (dep3Pages n0 n1 n2 nxt0 nxt1 nxt2 a0 a1 a2) 3
      = depCrawlLoop (dep3Pages n0 n1 n2 nxt0 nxt1 nxt2 a0 a1 a2) 2 1
          (mkDepPage n0 0 nxt0 a0) (mkDepPage n0 0 nxt0 a0) := rfl
    _ = depCrawlLoop (dep3Pages n0 n1 n2 nxt0 nxt1 nxt2 a0 a1 a2) 1 2
          (depMerge (mkDepPage n0 0 nxt0 a0) (mkDepPage n1 1 nxt1 a1))
          (mkDepPage n1 1 nxt1 a1) :=
        depCrawlLoop_step _ 1 1 _ _ nxt0 (depNext_mkDepPage n0 0 nxt0 a0) h0
    _ = depCrawlLoop (dep3Pages n0 n1 n2 nxt0 nxt1 nxt2 a0 a1 a2) 0 3
          (depMerge (depMerge (mkDepPage n0 0 nxt0 a0) (mkDepPage n1 1 nxt1 a1))
            (mkDepPage n2 2 nxt2 a2))
          (mkDepPage n2 2 nxt2 a2) :=
        depCrawlLoop_step _ 0 2 _ _ nxt1 (depNext_mkDepPage n1 1 nxt1 a1) h1
    _ = depMerge (depMerge (mkDepPage n0 0 nxt0 a0) (mkDepPage n1 1 nxt1 a1))
          (mkDepPage n2 2 nxt2 a2) := rfl

theorem keysBelow_build (n0 c0 i0 n1 c1 i1 : Nat) (w : DVal (Nat × Nat)) (m : Nat)
    (h0 : n0 + c0 ≤ m) (h1 : n1 + c1 ≤ m) :
    keysBelow (entRun n0 c0 i0 ++ (DKey.pagination, w) :: entRun n1 c1 i1) m := by
  intro p hp
  rcases List.mem_append.mp hp with h | h
  · simp only [entRun, List.mem_map, List.mem_range] at h
    obtain ⟨k, hk, rfl⟩ := h
    exact Or.inr ⟨k + c0, rfl, by omega⟩
  · rcases List.mem_cons.mp h with h | h
    · subst h
      exact Or.inl rfl
    · simp only [entRun, List.mem_map, List.mem_range] at h
      obtain ⟨k, hk, rfl⟩ := h
      exact Or.inr ⟨k + c1, rfl, by omega⟩

/-- **C3, amended.** For a three-page dependents crawl with page sizes
`n0, n1, n2` (each page carrying its pagination bucket and no uncollected
bucket), the entity keys of the final accumulator are, page by page,
`0 … n0-1`, then `S_1 + 1 … S_1 + n1`, then `S_2 + 1 … S_2 + n2`, where
`S_i = n0 + … + n_{i-1}`: the shift is `Object.keys(full_res).length`, which
counts the accumulator's `pagination` bucket as well, so each later page's
keys start one past the claimed `S_i`.  No two pages produce overlapping keys
(the key list is duplicate-free). -/
theorem depCrawl_keys_shifted_by_object_size (n0 n1 n2 : Nat)
    (nxt0 nxt1 nxt2 a0 a1 a2 : String) (h0 : nxt0 ≠ "") (h1 : nxt1 ≠ "") :
    entityKeys (depCrawl (dep3Pages n0 n1 n2 nxt0 nxt1 nxt2 a0 a1 a2) 3) =
        List.range n0 ++ (List.range n1).map (· + (n0 + 1))
          ++ (List.range n2).map (· + (n0 + n1 + 1)) ∧
      (List.range n0 ++ (List.range n1).map (· + (n0 + 1))
          ++ (List.range n2).map (· + (n0 + n1 + 1))).Nodup := by
  constructor
  · rw [depCrawl_dep3Pages n0 n1 n2 nxt0 nxt1 nxt2 a0 a1 a2 h0 h1]
    have e1 : depMerge (mkDepPage n0 0 nxt0 a0) (mkDepPage n1 1 nxt1 a1) =
        entRun n0 0 0 ++ (DKey.pagination, DVal.pag nxt1 a1) ::
          (([] : DepObj (Nat × Nat)) ++
            entRun n1 ((entRun n0 0 0).length + 1 + ([] : DepObj (Nat × Nat)).length) 1) :=
      depMerge_shape (entRun n0 0 0) [] (DVal.pag nxt0 a0) n1 1 nxt1 a1
        (entRun_no_pagination n0 0 0) (fun p hp => absurd hp (List.not_mem_nil p))
        (by
          have := keysBelow_build n0 0 0 0 0 0 (DVal.pag nxt0 a0)
            ((entRun n0 0 0).length + 1 + ([] : DepObj (Nat × Nat)).length)
            (by rw [entRun_length]; omega) (by omega)
          exact this)
    rw [entRun_length, List.length_nil, List.nil_append, Nat.add_zero] at e1
    rw [e1]
    have e2 : depMerge
        (entRun n0 0 0 ++ (DKey.pagination, DVal.pag nxt1 a1) :: entRun n1 (n0 + 1) 1)
        (mkDepPage n2 2 nxt2 a2) =
        entRun n0 0 0 ++ (DKey.pagination, DVal.pag nxt2 a2) ::
          (entRun n1 (n0 + 1) 1 ++
            entRun n2 ((entRun n0 0 0).length + 1 + (entRun n1 (n0 + 1) 1).length) 2) :=
      depMerge_shape (entRun n0 0 0) (entRun n1 (n0 + 1) 1) (DVal.pag nxt1 a1) n2 2 nxt2 a2
        (entRun_no_pagination n0 0 0) (entRun_no_pagination n1 (n0 + 1) 1)
        (keysBelow_build n0 0 0 n1 (n0 + 1) 1 (DVal.pag nxt1 a1)
          ((entRun n0 0 0).length + 1 + (entRun n1 (n0 + 1) 1).length)
          (by rw [entRun_length, entRun_length]; omega)
          (by rw [entRun_length, entRun_length]; omega))
    rw [entRun_length, entRun_length] at e2
    rw [show n0 + 1 + n1 = n0 + n1 + 1 by omega] at e2
    rw [e2, entityKeys_append, entityKeys_cons_pagination, entityKeys_append,
      entityKeys_entRun, entityKeys_entRun, entityKeys_entRun]
    have hz : (List.range n0).map (· + 0) = List.range n0 := by
      simp
    rw [hz, List.append_assoc]
  · rw [List.append_assoc, List.nodup_append]
    refine ⟨List.nodup_range n0, ?_, ?_⟩
    · rw [List.nodup_append]
      refine ⟨(List.nodup_range n1).map (add_left_injective (n0 + 1)),
        (List.nodup_range n2).map (add_left_injective (n0 + n1 + 1)), ?_⟩
      rw [List.disjoint_left]
      intro a ha hb
      simp only [List.mem_map, List.mem_range] at ha hb
      obtain ⟨x, hx, rfl⟩ := ha
      obtain ⟨y, hy, hxy⟩ := hb
      omega
    · rw [List.disjoint_left]
      intro a ha hb
      simp only [List.mem_range] at ha
      simp only [List.mem_append, List.mem_map, List.mem_range] at hb
      rcases hb with ⟨x, hx, rfl⟩ | ⟨x, hx, rfl⟩ <;> omega

/-- Witness for the amended **C3**: pages of sizes `[2, 1, 1]` give entity
keys `[0, 1] ++ [3] ++ [4]`. -/
theorem depCrawl_keys_shifted_by_object_size_witness :
    entityKeys (depCrawl (dep3Pages 2 1 1 "/n1" "/n2" "" "a0" "a1" "a2") 3) =
        List.range 2 ++ (List.range 1).map (· + (2 + 1))
          ++ (List.range 1).map (· + (2 + 1 + 1)) ∧
      (List.range 2 ++ (List.range 1).map (· + (2 + 1))
          ++ (List.range 1).map (· + (2 + 1 + 1))).Nodup :=
  depCrawl_keys_shifted_by_object_size 2 1 1 "/n1" "/n2" "" "a0" "a1" "a2"
    (by decide) (by decide)

/-- **C3, counterexample.** Three pages of one dependent each (sizes
`[1, 1, 1]`, each page with its pagination bucket): the claim says the keys
assigned are `S_i … S_i + n_i - 1`, i.e. `[0, 1, 2]`.  The code shifts by
`Object.keys(full_res).length`, which also counts the `pagination` bucket, so
the accumulator's entity keys come out as `[0, 2, 3]`: page 1's record gets
key `2`, not the claimed `1`. -/
theorem depCrawl_keys_counterexample :
    entityKeys (depCrawl depPagesUnit 3) = [0, 2, 3] ∧
      entityKeys (depCrawl depPagesUnit 3) ≠ [0, 1, 2] := by
  constructor
  · rfl
  · decide

end GithubScraper
